import Mathlib

/-!
Verification of the Resizer core (Resizer.cc) against its specification.

The development shallowly embeds the functions of `Resizer.cc` over exact
rational arithmetic (`ℚ` in place of IEEE floats).  External collaborators
(the STA kernel's fuzzy comparators, SDC limit lookups, liberty gate-delay
models, the timing graph) are modelled as explicit parameters or, where the
spec pins down their behaviour, as definitions marked "Modelled from the
spec".  All code translated from `Resizer.cc` cites the function it embeds.
-/

/-- Modelled from the spec: the fuzzy comparator of the external STA kernel
(spec section 4.6.7): two values are equal within an epsilon proportional to
their magnitudes.  The epsilon default is configurable; any positive value
works for every theorem below. -/
def fuzzyEpsilon : ℚ := 1 / 1000000

/-- Modelled from the spec: fuzzy equality, equal within `fuzzyEpsilon`
proportional to the magnitudes involved (spec sections 4.6.7, 9). -/
def fuzzyEqualQ (a b : ℚ) : Bool :=
  decide (|a - b| ≤ fuzzyEpsilon * max |a| |b|)

/-- Modelled from the spec: fuzzy strict less-than (strict outside the
epsilon band), used by the pruning and selection loops of `Resizer.cc`. -/
def fuzzyLessQ (a b : ℚ) : Bool :=
  decide (a < b) && !(fuzzyEqualQ a b)

/-- Modelled from the spec: fuzzy strict greater-than. -/
def fuzzyGreaterQ (a b : ℚ) : Bool :=
  decide (b < a) && !(fuzzyEqualQ a b)

/-- Required times in `Resizer.cc` are floats that can be `-INF` or `INF`
(`MinMax` init values, unconstrained pins).  `RVal` is the exact counterpart:
a rational extended with both infinities. -/
inductive RVal : Type where
  | ninf : RVal
  | fin : ℚ → RVal
  | inf : RVal
deriving DecidableEq

/-- Strict order on extended values, mirroring float `<` (with infinities). -/
def rvalLt : RVal → RVal → Bool
  | .ninf, .ninf => false
  | .ninf, _ => true
  | .fin _, .ninf => false
  | .fin a, .fin b => decide (a < b)
  | .fin _, .inf => true
  | .inf, _ => false

/-- Fuzzy equality on extended values.  Mirrors the kernel comparator on
floats: identical infinities compare equal (the `v1 == v2` fast path), an
infinity is never fuzzy-equal to a finite value. -/
def rvalFuzzyEqual : RVal → RVal → Bool
  | .ninf, .ninf => true
  | .inf, .inf => true
  | .fin a, .fin b => fuzzyEqualQ a b
  | _, _ => false

/-- Fuzzy strict greater-than on extended values (`fuzzyGreater` on floats). -/
def rvalFuzzyGreater (a b : RVal) : Bool :=
  rvalLt b a && !(rvalFuzzyEqual a b)

/-- Fuzzy strict less-than on extended values (`fuzzyLess` on floats). -/
def rvalFuzzyLess (a b : RVal) : Bool :=
  rvalLt a b && !(rvalFuzzyEqual a b)

/-- Modelled from the spec: `fuzzyInf` of the STA kernel, true exactly on the
two infinities (used by `Resizer::rebuffer` to skip unconstrained drivers). -/
def rvalFuzzyInf : RVal → Bool
  | .ninf => true
  | .inf => true
  | .fin _ => false

/-- Subtract a finite delay from an extended required time (float semantics:
`INF - d = INF`, `-INF - d = -INF`). -/
def rvalSub : RVal → ℚ → RVal
  | .ninf, _ => .ninf
  | .inf, _ => .inf
  | .fin a, d => .fin (a - d)

/-- Minimum of two extended required times (float `min`). -/
def rvalMin : RVal → RVal → RVal
  | .ninf, _ => .ninf
  | _, .ninf => .ninf
  | .inf, b => b
  | a, .inf => a
  | .fin a, .fin b => .fin (min a b)

/-! ## Violation detectors (Resizer.cc lines 636-726, spec section 4.5) -/

/-- A liberty port as seen by `Resizer.cc`: per-transition input capacitances
at the `max` analysis condition and an optional max-capacitance limit
(`LibertyPort::capacitanceLimit(MinMax::max())`). -/
structure LibPortModel : Type where
  capRise : ℚ
  capFall : ℚ
  capLimit : Option ℚ
deriving DecidableEq

/-- Embeds `Resizer::hasMaxCapViolation` (Resizer.cc lines 636-648): the
pin's liberty port is looked up (`none` models a pin with no liberty port),
its max-capacitance limit queried, and the observed load compared against
it.  `loadCap` stands for `GraphDelayCalc::loadCap` at the pin. -/
def hasMaxCapViolation (port : Option LibPortModel) (loadCap : ℚ) : Bool :=
  match port with
  | some p =>
    match p.capLimit with
    | some lim => decide (loadCap > lim)
    | none => false
  | none => false

/-- The four slew-limit sources consulted by `Resizer::slewLimit`
(Resizer.cc lines 667-726).  A `none` means the corresponding lookup reports
`exists = false`.  `unsetValue` models the value left in the uninitialized
`float top_limit` stack variable when `Sdc::slewLimit` reports that no
top-level ("design") limit exists: the source still copies it into `limit`. -/
structure SlewLimitInputs : Type where
  topLimit : Option ℚ
  topPortLimit : Option ℚ
  pinLimit : Option ℚ
  libPortLimit : Option ℚ
  unsetValue : ℚ
deriving DecidableEq

/-- One "use the tightest limit" update of `Resizer::slewLimit`: a candidate
limit replaces the current one when it exists and either no limit exists yet
or the current one is looser (`MinMax::max()->compare(limit, cand)`, i.e.
`limit > cand`). -/
def tightenLimit (cur : ℚ × Bool) (cand : Option ℚ) : ℚ × Bool :=
  match cand with
  | some v => if !cur.2 || decide (cur.1 > v) then (v, true) else cur
  | none => cur

/-- Embeds `Resizer::slewLimit` (Resizer.cc lines 667-726).  Starts from the
top ("design") limit, then tightens with the top-level port limit for a top
port, or with the per-pin SDC limit followed by the liberty-port limit
otherwise.  Returns the `(limit, exists)` out-parameter pair.  (A pin whose
liberty port exists but declares no limit behaves like a pin with no liberty
port, so both are modelled by `libPortLimit = none`.) -/
def slewLimit (isTopPort : Bool) (L : SlewLimitInputs) : ℚ × Bool :=
  let base : ℚ × Bool :=
    match L.topLimit with
    | some v => (v, true)
    | none => (L.unsetValue, false)
  if isTopPort then tightenLimit base L.topPortLimit
  else tightenLimit (tightenLimit base L.pinLimit) L.libPortLimit

/-- Embeds `Resizer::hasMaxSlewViolation` (Resizer.cc lines 650-665).  The
source iterates the rise and fall transitions, calling `slewLimit` for each;
`slewLimit` never reads the transition, so both calls agree.  Note the
source compares `slew > limit` without consulting the `exists` flag. -/
def hasMaxSlewViolation (slewRise slewFall : ℚ) (isTopPort : Bool)
    (L : SlewLimitInputs) : Bool :=
  decide (slewRise > (slewLimit isTopPort L).1)
    || decide (slewFall > (slewLimit isTopPort L).1)

/-! ## Levelizer (Resizer.cc lines 88-115 and 184-197, spec section 4.1) -/

/-- A timing-graph vertex as consulted by `VertexLevelLess` and
`ensureLevelDrvrVerticies`: its level, the hierarchical path name of its
pin, and whether it is a driver vertex. -/
structure Vtx : Type where
  level : ℕ
  path : String
  isDriver : Bool
deriving DecidableEq

/-- Embeds `VertexLevelLess::operator()` (Resizer.cc lines 104-115): order
by level, breaking ties by `stringLess` on the pins' path names. -/
def vertexLevelLess (v1 v2 : Vtx) : Bool :=
  decide (v1.level < v2.level)
    || (decide (v1.level = v2.level) && decide (v1.path < v2.path))

/-- Insert into a list sorted by the strict comparator `lt` (before the
first element not less than the inserted one). -/
def insertLess (lt : Vtx → Vtx → Bool) (a : Vtx) : List Vtx → List Vtx
  | [] => [a]
  | b :: l => if lt b a then b :: insertLess lt a l else a :: b :: l

/-- Sort by the strict comparator `lt`.  For the strict total orders used
here this agrees with the `sort` called by `Resizer.cc`. -/
def sortLess (lt : Vtx → Vtx → Bool) : List Vtx → List Vtx
  | [] => []
  | a :: l => insertLess lt a (sortLess lt l)

/-- Embeds `Resizer::ensureLevelDrvrVerticies` (Resizer.cc lines 184-197):
the vertex iterator pushes EVERY vertex of the graph (there is no driver
test in the loop body), and the list is sorted by `VertexLevelLess`. -/
def ensureLevelDrvrVerticies (graphVerticies : List Vtx) : List Vtx :=
  sortLess vertexLevelLess graphVerticies

/-- A driver vertex at level 1. -/
def exampleDrvrVtx : Vtx := ⟨1, "u1/z", true⟩

/-- A load (non-driver) vertex at level 2. -/
def exampleLoadVtx : Vtx := ⟨2, "u2/a", false⟩

/-! ## Rebuffering data model (Resizer.cc lines 552-611, spec section 3) -/

/-- A placement point in integer database units (`DefPt`). -/
structure DefPt : Type where
  x : ℤ
  y : ℤ
deriving DecidableEq

/-- Rectilinear (Manhattan) distance in database units, as computed in
`Resizer::addWireAndBuffer` (Resizer.cc lines 888-889). -/
def manhattanDbu (p q : DefPt) : ℤ := |p.x - q.x| + |p.y - q.y|

/-- The environment a rebuffering run reads: per-meter wire R and C
(`wire_res_`, `wire_cap_`), the DBU-to-meter scale of the LEF/DEF network,
and the buffer cell's delay function and input capacitance.  `bufferDelay`
stands for `Resizer::bufferDelay` (Resizer.cc lines 1073-1080), the max
gate delay of the buffer's output port as a function of load capacitance,
evaluated by the external delay calculator. -/
structure RebufEnv : Type where
  wireResPerMeter : ℚ
  wireCapPerMeter : ℚ
  dbuToMeters : ℚ
  bufferDelay : ℚ → ℚ
  bufferInputCap : ℚ

/-- Embeds the `RebufferOption` class (Resizer.cc lines 552-600): the type
tag together with the fields each type uses (`sink` carries a load pin and
no refs, `junction` two refs, `wire` and `buffer` one ref).  Load pins are
identified by a numeric id. -/
inductive RebufferOption : Type where
  | sink (cap : ℚ) (required : RVal) (loadPin : ℕ) (location : DefPt)
  | junc (cap : ℚ) (required : RVal) (location : DefPt)
      (ref ref2 : RebufferOption)
  | wire (cap : ℚ) (required : RVal) (location : DefPt) (ref : RebufferOption)
  | buf (cap : ℚ) (required : RVal) (location : DefPt) (ref : RebufferOption)
deriving DecidableEq

/-- Accessor `RebufferOption::cap()`. -/
def optCap : RebufferOption → ℚ
  | .sink c _ _ _ => c
  | .junc c _ _ _ _ => c
  | .wire c _ _ _ => c
  | .buf c _ _ _ => c

/-- Accessor `RebufferOption::required()`. -/
def optRequired : RebufferOption → RVal
  | .sink _ r _ _ => r
  | .junc _ r _ _ _ => r
  | .wire _ r _ _ => r
  | .buf _ r _ _ => r

/-- Accessor `RebufferOption::location()`. -/
def optLocation : RebufferOption → DefPt
  | .sink _ _ _ l => l
  | .junc _ _ l _ _ => l
  | .wire _ _ l _ => l
  | .buf _ _ l _ => l

/-- Embeds `RebufferOption::bufferRequired` (Resizer.cc lines 606-611):
`required - bufferDelay(buffer_cell, cap)`. -/
def bufferRequired (E : RebufEnv) (o : RebufferOption) : RVal :=
  rvalSub (optRequired o) (E.bufferDelay (optCap o))

/-- Wire length in meters between a node and its parent
(`LefDefNetwork::dbuToMeters` applied to the Manhattan DBU distance). -/
def wireLengthMeters (E : RebufEnv) (k prev : DefPt) : ℚ :=
  (manhattanDbu k prev : ℚ) * E.dbuToMeters

/-- The wire capacitance `wire_length * wire_cap_` of
`Resizer::addWireAndBuffer` (Resizer.cc line 891). -/
def wireCapOf (E : RebufEnv) (k prev : DefPt) : ℚ :=
  wireLengthMeters E k prev * E.wireCapPerMeter

/-- The wire resistance `wire_length * wire_res_` (Resizer.cc line 892). -/
def wireResOf (E : RebufEnv) (k prev : DefPt) : ℚ :=
  wireLengthMeters E k prev * E.wireResPerMeter

/-- The lumped wire delay `wire_res * wire_cap` (Resizer.cc line 893). -/
def wireDelayOf (E : RebufEnv) (k prev : DefPt) : ℚ :=
  wireResOf E k prev * wireCapOf E k prev

/-- The `wire` option built for `p` in `Resizer::addWireAndBuffer`
(Resizer.cc lines 895-902): cap grows by the wire load, required shrinks by
the wire delay, located at the parent, ref = `p`. -/
def mkWireOption (E : RebufEnv) (k prev : DefPt) (p : RebufferOption) :
    RebufferOption :=
  .wire (optCap p + wireCapOf E k prev)
    (rvalSub (optRequired p) (wireDelayOf E k prev)) prev p

/-- Embeds `Resizer::addWireAndBuffer` (Resizer.cc lines 874-938) as a fold
mirroring the single pass of the source: every option is extended by the
wire toward the parent, and the option whose wire extension has the best
`bufferRequired` is remembered (`best`, `best_ref`); if one was found, one
`buffer` option is appended carrying the buffer input capacitance, that best
value as its required time, the parent location, and `best_ref` as its ref.
`awbStep` is the loop body (Resizer.cc lines 894-919). -/
def awbStep (E : RebufEnv) (kLoc prevLoc : DefPt)
    (acc : List RebufferOption × RVal × Option RebufferOption)
    (p : RebufferOption) :
    List RebufferOption × RVal × Option RebufferOption :=
  if rvalFuzzyGreater (bufferRequired E (mkWireOption E kLoc prevLoc p))
      acc.2.1 then
    (acc.1 ++ [mkWireOption E kLoc prevLoc p],
     bufferRequired E (mkWireOption E kLoc prevLoc p), some p)
  else (acc.1 ++ [mkWireOption E kLoc prevLoc p], acc.2.1, acc.2.2)

def addWireAndBuffer (E : RebufEnv) (Z : List RebufferOption)
    (kLoc prevLoc : DefPt) : List RebufferOption :=
  let st := Z.foldl (awbStep E kLoc prevLoc)
    (([] : List RebufferOption), RVal.ninf, (none : Option RebufferOption))
  match st.2.2 with
  | some p => st.1 ++ [.buf E.bufferInputCap st.2.1 prevLoc p]
  | none => st.1

/-- The `bufferRequired` of an option's wire extension toward the parent:
the quantity the `best`/`best_ref` selection of `Resizer::addWireAndBuffer`
maximizes (Resizer.cc lines 914-918). -/
def wireBufReq (E : RebufEnv) (kLoc prevLoc : DefPt) (p : RebufferOption) :
    RVal :=
  bufferRequired E (mkWireOption E kLoc prevLoc p)

/-! ## Junction pruning (Resizer.cc lines 837-855) -/

/-- The writes performed by one inner pruning loop of
`Resizer::rebufferBottomUp` (Resizer.cc lines 842-853) with the outer
option `p` fixed.  The source walks the vector, and for each non-null `q`
dominated by `p` assigns `Z2[qi] = nullptr`; crucially `qi` is incremented
only for non-null entries, so once null entries precede `q`, the write
lands at an index smaller than `q`'s position.  This function returns the
list of indices written, computed with exactly that counting. -/
def pruneWrites (E : RebufEnv) (p : RebufferOption) :
    List (Option RebufferOption) → ℕ → List ℕ
  | [], _ => []
  | none :: rest, qi => pruneWrites E p rest qi
  | some q :: rest, qi =>
    (if rvalFuzzyLess (bufferRequired E q) (bufferRequired E p)
        && fuzzyGreaterQ (optCap q) (optCap p)
     then [qi] else []) ++ pruneWrites E p rest (qi + 1)

/-- Apply null-writes at the given indices, positions counted from `i`
(all writes store `nullptr`, so order is irrelevant, and the inner loop
reads each position before any write could reach it). -/
def applyWrites (ws : List ℕ) :
    List (Option RebufferOption) → ℕ → List (Option RebufferOption)
  | [], _ => []
  | x :: rest, i => (if i ∈ ws then none else x) :: applyWrites ws rest (i + 1)

/-- One outer pruning step: the inner loop over the whole vector with outer
option `p` fixed. -/
def pruneStep (E : RebufEnv) (arr : List (Option RebufferOption))
    (p : RebufferOption) : List (Option RebufferOption) :=
  applyWrites (pruneWrites E p arr 0) arr 0

/-- The outer pruning loop (Resizer.cc lines 838-855): position `i` is read
from the current vector (earlier steps' writes are visible); a non-null
entry runs the inner loop.  `n` counts the remaining positions. -/
def pruneAux (E : RebufEnv) :
    ℕ → List (Option RebufferOption) → ℕ → List (Option RebufferOption)
  | 0, arr, _ => arr
  | n + 1, arr, i =>
    let arr' := match arr.getD i none with
      | some p => pruneStep E arr p
      | none => arr
    pruneAux E n arr' (i + 1)

/-- Full pruning of a junction option vector. -/
def pruneOptions (E : RebufEnv) (Z2 : List (Option RebufferOption)) :
    List (Option RebufferOption) :=
  pruneAux E Z2.length Z2 0

/-- The survivors saved after pruning (Resizer.cc lines 856-867): the
non-null entries in order. -/
def pruneSurvivors (E : RebufEnv) (Z2 : List RebufferOption) :
    List RebufferOption :=
  (pruneOptions E (Z2.map some)).filterMap id

/-! ## Bottom-up DP (Resizer.cc lines 790-872, spec section 4.6.1) -/

/-- The pin data the DP reads at a Steiner-tree vertex: an id, whether the
pin is a load (`Network::isLoad`), its liberty port (for `pinCapacitance`),
and its required time (`Resizer::pinRequired`). -/
structure SinkPin : Type where
  id : ℕ
  isLoad : Bool
  port : Option LibPortModel
  required : RVal
deriving DecidableEq

/-- A binary Steiner tree as consumed by `Resizer::rebufferBottomUp`:
`null` is `SteinerTree::null_pt`; an inner vertex carries its location, an
optional pin (Steiner points have none), and left/right subtrees. -/
inductive STree : Type where
  | null : STree
  | node (location : DefPt) (pin : Option SinkPin) (left right : STree)
deriving DecidableEq

/-- Embeds `Resizer::portCapacitance` (Resizer.cc lines 1039-1045): the max
of rise and fall capacitance at the `max` analysis condition. -/
def portCapacitance (p : LibPortModel) : ℚ := max p.capRise p.capFall

/-- Embeds `Resizer::pinCapacitance` (Resizer.cc lines 1029-1037): the
liberty port's capacitance, or `0.0` for a pin with no liberty port. -/
def pinCapacitance (port : Option LibPortModel) : ℚ :=
  match port with
  | some p => portCapacitance p
  | none => 0

/-- Embeds `Resizer::rebufferBottomUp` (Resizer.cc lines 790-872).  A load
pin produces the singleton sink option (cap from `pinCapacitance`, required
from the pin); a Steiner point (no pin) recurses left and right, forms the
cross-product junction options, prunes them, and keeps the survivors; a
non-null vertex with a non-load pin produces nothing.  Each result is
extended toward the parent by `addWireAndBuffer`. -/
def rebufferBottomUp (E : RebufEnv) : STree → DefPt → List RebufferOption
  | .null, _ => []
  | .node loc pin l r, prevLoc =>
    match pin with
    | some s =>
      if s.isLoad then
        addWireAndBuffer E [.sink (pinCapacitance s.port) s.required s.id loc]
          loc prevLoc
      else []
    | none =>
      let Zl := rebufferBottomUp E l loc
      let Zr := rebufferBottomUp E r loc
      let Z2 := Zl.flatMap (fun p => Zr.map (fun q =>
        (.junc (optCap p + optCap q)
          (rvalMin (optRequired p) (optRequired q)) loc p q : RebufferOption)))
      addWireAndBuffer E (pruneSurvivors E Z2) loc prevLoc

/-! ## Top-down materialization (Resizer.cc lines 941-998, spec 4.6.4) -/

/-- The netlist mutations `Resizer::rebufferTopDown` performs, recorded in
order.  Nets and buffer instances are identified by the integer suffix of
their unique generated name (`net<k>`, `buffer<k>`; the collision-retry of
`makeUniqueNetName` only skips suffixes, so fresh integers model it). -/
inductive NetlistMutation : Type where
  | makeNet (net : ℕ)
  | makeBufferInst (buffer : ℕ)
  | connectInput (buffer net : ℕ)
  | connectOutput (buffer net : ℕ)
  | setLocation (buffer : ℕ) (loc : DefPt)
  | disconnectPin (pin : ℕ)
  | connectLoadPin (pin net : ℕ)
  | makeNetParasitics (net : ℕ)
deriving DecidableEq

/-- The mutable state a rebuffering run threads: the two counters reported
as "Inserted B buffers in M nets.", the unique-name indices, and the log of
netlist mutations performed so far. -/
structure RState : Type where
  insertedBufferCount : ℕ
  rebufferNetCount : ℕ
  netIndex : ℕ
  bufferIndex : ℕ
  muts : List NetlistMutation
deriving DecidableEq

/-- Embeds `Resizer::rebufferTopDown` (Resizer.cc lines 941-998), returning
the insertion count together with the updated state.  `pinNet` gives the
net each load pin is connected to before the run (`Network::net`).  In the
`buffer` case the source makes a new net and buffer instance, connects the
buffer between the incoming net and the new net, places it, recurses on
`ref` with the new net - DISCARDING the recursive call's return value - and
returns 1; `junction` sums both branches; `wire` passes through; `sink`
reconnects the load pin if it is on a different net and returns 0. -/
def rebufferTopDown (pinNet : ℕ → ℕ) :
    RebufferOption → ℕ → RState → ℕ × RState
  | .buf _ _ loc ref, net, st =>
    let net2 := st.netIndex
    let buffer := st.bufferIndex
    let st1 : RState := { st with
      netIndex := st.netIndex + 1
      bufferIndex := st.bufferIndex + 1
      muts := st.muts ++ [.makeNet net2, .makeBufferInst buffer,
        .connectInput buffer net, .connectOutput buffer net2,
        .setLocation buffer loc] }
    let res1 := rebufferTopDown pinNet ref net2 st1
    (1, { res1.2 with
      muts := res1.2.muts ++ [.makeNetParasitics net, .makeNetParasitics net2] })
  | .wire _ _ _ ref, net, st => rebufferTopDown pinNet ref net st
  | .junc _ _ _ ref ref2, net, st =>
    let res1 := rebufferTopDown pinNet ref net st
    let res2 := rebufferTopDown pinNet ref2 net res1.2
    (res1.1 + res2.1, res2.2)
  | .sink _ _ loadPin _, net, st =>
    if pinNet loadPin ≠ net then
      (0, { st with
        muts := st.muts ++ [.disconnectPin loadPin, .connectLoadPin loadPin net] })
    else (0, st)

/-- The buffer instances created by a mutation log. -/
def createdBufferCount (muts : List NetlistMutation) : ℕ :=
  (muts.filter (fun m => match m with
    | .makeBufferInst _ => true
    | _ => false)).length

/-- Embeds the per-driver-pin `Resizer::rebuffer` (Resizer.cc lines
741-785).  `drvrSubtree` is `tree->left(drvr_pt)` with `drvrLoc` the driver
vertex's location; `gateDelayDrvr` is `Resizer::gateDelay(drvr_port, cap)`.
When the driver's required time is infinite (`fuzzyInf`) nothing at all
happens; otherwise the DP runs, the root option maximizing
`required - gateDelay(drvr_port, cap)` is materialized top-down, and the
counters are bumped when anything was inserted. -/
def rebufferPin (E : RebufEnv) (gateDelayDrvr : ℚ → ℚ) (drvrSubtree : STree)
    (drvrLoc : DefPt) (drvrReq : RVal) (net : ℕ) (pinNet : ℕ → ℕ)
    (st : RState) : RState :=
  if rvalFuzzyInf drvrReq then st
  else
    let Z := rebufferBottomUp E drvrSubtree drvrLoc
    let sel := Z.foldl (fun acc p =>
        let tb := rvalSub (optRequired p) (gateDelayDrvr (optCap p))
        if rvalFuzzyGreater tb acc.1 then (tb, some p) else acc)
      (RVal.ninf, (none : Option RebufferOption))
    match sel.2 with
    | some best =>
      let res := rebufferTopDown pinNet best net st
      if res.1 > 0 then
        { res.2 with
          insertedBufferCount := res.2.insertedBufferCount + res.1
          rebufferNetCount := res.2.rebufferNetCount + 1 }
      else res.2
    | none => st

/-! ## Resize to target slew (Resizer.cc lines 220-266, spec section 4.4) -/

/-- A library cell as the resize loop sees it: an identity and its entry in
the target-load map. -/
structure CellModel : Type where
  id : ℕ
  targetLoad : ℚ
deriving DecidableEq

/-- The ratio metric of `Resizer::resizeToTargetSlew1` (Resizer.cc lines
236-239): `target_load / load_cap`, folded into `[0, 1]` by inverting when
above 1. -/
def ratioFolded (targetLoad loadCap : ℚ) : ℚ :=
  let ratio := targetLoad / loadCap
  if ratio > 1 then 1 / ratio else ratio

/-- Embeds the candidate-selection loop of `Resizer::resizeToTargetSlew1`
(Resizer.cc lines 231-244): iterate the equivalence group, keeping the
first cell whose folded ratio strictly exceeds the best so far (best ratio
starts at 0).  `resizeCandidateStep` is the loop body, `bestEquivCell` the
whole loop. -/
def resizeCandidateStep (loadCap : ℚ) (acc : ℚ × Option CellModel)
    (c : CellModel) : ℚ × Option CellModel :=
  let ratio := ratioFolded c.targetLoad loadCap
  if ratio > acc.1 then (ratio, some c) else acc

def bestEquivCell (equivCells : List CellModel) (loadCap : ℚ) :
    Option CellModel :=
  (equivCells.foldl (resizeCandidateStep loadCap)
    ((0 : ℚ), (none : Option CellModel))).2

/-- Embeds the replacement decision of `Resizer::resizeToTargetSlew1`
(Resizer.cc lines 245-262): the instance is resized exactly when a best
cell exists and differs from the current cell; the result is the
replacement cell.  (The LEF branch substitutes the LEF twin of the same
best cell and is not modelled separately.) -/
def resizeToTargetSlew1 (cell : CellModel) (equivCells : List CellModel)
    (loadCap : ℚ) : Option CellModel :=
  match bestEquivCell equivCells loadCap with
  | some best => if best ≠ cell then some best else none
  | none => none

/-! ## Target load search (Resizer.cc lines 350-375, spec section 4.2) -/

/-- Constant `cap_init = 1.0e-12` (1 pF). -/
def capInit : ℚ := 1 / 1000000000000

/-- Constant `cap_tol = cap_init * .001`. -/
def capTol : ℚ := capInit * (1 / 1000)

/-- Embeds the bisection-by-halving loop of `Resizer::findTargetLoad`
(Resizer.cc lines 357-372) with explicit fuel.  `slewAt load` stands for
the output slew of `model->gateDelay(cell, pvt, 0.0, load, ...)`.  While
the step exceeds the tolerance: if the slew at the current load exceeds the
target, back off by the step and halve it; in either case advance by the
(possibly halved) step.  `none` means the fuel ran out before the loop
exited. -/
def findTargetLoadLoop (slewAt : ℚ → ℚ) (inSlew : ℚ) :
    ℕ → ℚ → ℚ → Option ℚ
  | 0, _, _ => none
  | n + 1, loadCap, capStep =>
    if capStep > capTol then
      if slewAt loadCap > inSlew then
        findTargetLoadLoop slewAt inSlew n (loadCap - capStep + capStep / 2)
          (capStep / 2)
      else
        findTargetLoadLoop slewAt inSlew n (loadCap + capStep) capStep
    else some loadCap

/-! ## Derived observers and concrete inputs -/

/-- True exactly on buffer-typed options. -/
def isBufferOpt : RebufferOption → Bool
  | .buf _ _ _ _ => true
  | _ => false

/-- The `(load pin, cap)` pairs of all sink options reachable through the
`ref`/`ref2` back-references of an option (the option DAG of spec section
3). -/
def collectSinkCaps : RebufferOption → List (ℕ × ℚ)
  | .sink c _ pin _ => [(pin, c)]
  | .junc _ _ _ r1 r2 => collectSinkCaps r1 ++ collectSinkCaps r2
  | .wire _ _ _ r => collectSinkCaps r
  | .buf _ _ _ r => collectSinkCaps r

/-- The load pins of a Steiner tree (the pins producing sink options). -/
def treeSinks : STree → List SinkPin
  | .null => []
  | .node _ pin l r =>
    (match pin with
     | some s => if s.isLoad then [s] else []
     | none => []) ++ treeSinks l ++ treeSinks r

/-- An environment with zero wire parasitics and a zero-delay buffer, used
for concrete evaluations. -/
def zeroEnv : RebufEnv := ⟨0, 0, 0, fun _ => 0, 0⟩

/-- An empty starting state for a rebuffering run (unique-name indices
start at 1, as in the `Resizer` constructor). -/
def initState : RState := ⟨0, 0, 1, 1, []⟩

/-- A chosen option with a second buffer nested below the root buffer
(root buffer over a junction whose left branch is again a buffer).  This
shape is exactly what the DP produces: buffer refs point into the
pre-wire set, junction refs into `addWireAndBuffer` results. -/
def undercountOption : RebufferOption :=
  .buf 1 (.fin 1) ⟨0, 0⟩
    (.junc 2 (.fin 1) ⟨0, 0⟩
      (.buf 1 (.fin 1) ⟨0, 0⟩ (.sink 1 (.fin 1) 7 ⟨0, 0⟩))
      (.wire 1 (.fin 1) ⟨0, 0⟩ (.sink 1 (.fin 1) 8 ⟨0, 0⟩)))

/-- A sink option used as the refs of concrete junction options. -/
def sinkRef : RebufferOption := .sink 1 (.fin 1) 0 ⟨0, 0⟩

/-- Junction option X: cap 3, required 1 (worst in both coordinates). -/
def optX : RebufferOption := .junc 3 (.fin 1) ⟨0, 0⟩ sinkRef sinkRef

/-- Junction option P: cap 2, required 2 (dominated by Q). -/
def optP : RebufferOption := .junc 2 (.fin 2) ⟨0, 0⟩ sinkRef sinkRef

/-- Junction option Q: cap 1, required 3 (dominates P). -/
def optQ : RebufferOption := .junc 1 (.fin 3) ⟨0, 0⟩ sinkRef sinkRef

/-- A unit-parameter environment for the C1 counterexample: wire R and C of
1 per meter, one meter per DBU, buffer delay equal to the load, buffer
input capacitance 1. -/
def cxEnv : RebufEnv := ⟨1, 1, 1, fun c => c, 1⟩

/-- A sink option one DBU away from its parent: cap 1, required 10. -/
def cxSink : RebufferOption := .sink 1 (.fin 10) 5 ⟨0, 0⟩

/-- A one-load Steiner leaf for the C10 witness: load pin 9 with liberty
port capacitances (rise 2, fall 3) and no cap limit. -/
def witTree : STree :=
  .node ⟨0, 0⟩ (some ⟨9, true, some ⟨2, 3, none⟩, .fin 5⟩) .null .null

/-- The wire option produced for the C10 witness leaf. -/
def witOpt : RebufferOption :=
  .wire 3 (.fin 5) ⟨0, 0⟩ (.sink 3 (.fin 5) 9 ⟨0, 0⟩)

/-- The invariant of the `addWireAndBuffer` selection fold after processing
the prefix `proc`: the accumulated list is `proc`'s wire extension, and the
`(best, best_ref)` pair is either still the initial `(-INF, nullptr)` (all
processed wire-extended buffer-required values being `-INF`) or holds the
first fuzzy maximizer of `wireBufReq` over `proc`. -/
def AwbInv (E : RebufEnv) (kLoc prevLoc : DefPt)
    (proc : List RebufferOption)
    (st : List RebufferOption × RVal × Option RebufferOption) : Prop :=
  st.1 = proc.map (mkWireOption E kLoc prevLoc) ∧
  ((st.2.2 = none ∧ st.2.1 = RVal.ninf ∧
      ∀ q ∈ proc, wireBufReq E kLoc prevLoc q = RVal.ninf) ∨
    (∃ p, st.2.2 = some p ∧ p ∈ proc ∧
      st.2.1 = wireBufReq E kLoc prevLoc p ∧
      ∀ q ∈ proc, rvalFuzzyGreater (wireBufReq E kLoc prevLoc q)
        (wireBufReq E kLoc prevLoc p) = false))

/-! ## Theorems -/

/-- C9: when the driver's required time is infinite, the per-pin rebuffer
run changes nothing: no mutation is logged and every counter is unchanged
(Resizer.cc line 762 guards the whole body with `!fuzzyInf(drvr_req)`). -/
theorem rebuffer_unconstrained_driver_noop (E : RebufEnv) (g : ℚ → ℚ)
    (t : STree) (loc : DefPt) (req : RVal) (net : ℕ) (pinNet : ℕ → ℕ)
    (st : RState) (h : rvalFuzzyInf req = true) :
    rebufferPin E g t loc req net pinNet st = st := by
  unfold rebufferPin
  simp [h]

/-- Witness for C9 at a concrete unconstrained driver. -/
theorem rebuffer_unconstrained_driver_noop_witness :
    rvalFuzzyInf RVal.inf = true ∧
    rebufferPin zeroEnv (fun _ => 0) STree.null ⟨0, 0⟩ RVal.inf 0 (fun _ => 0)
      initState = initState :=
  ⟨rfl, rebuffer_unconstrained_driver_noop zeroEnv (fun _ => 0) STree.null
    ⟨0, 0⟩ RVal.inf 0 (fun _ => 0) initState rfl⟩

/-- C2 (code evaluated at the failing input): materializing
`undercountOption` creates two buffer instances but returns insertion count
1: the `buffer` case of `Resizer::rebufferTopDown` discards the count of
the recursive call on its `ref` (Resizer.cc lines 968-971), so the count a
buffer option returns does NOT include its subtree's insertions, and the
reported "Inserted B buffers" undercounts the instances created. -/
theorem rebufferTopDown_buffer_count_drops_subtree :
    (rebufferTopDown (fun _ => 0) undercountOption 0 initState).1 = 1 ∧
    createdBufferCount
      (rebufferTopDown (fun _ => 0) undercountOption 0 initState).2.muts = 2 := by
  constructor
  · rfl
  · rfl

/-- With a gate model whose output slew never exceeds the target, the
`findTargetLoad` loop never halves its step: each iteration keeps
`cap_step` at `capInit`, so the guard `cap_step > cap_tol` never fails. -/
theorem findTargetLoadLoop_const_stuck (n : ℕ) : ∀ c : ℚ,
    findTargetLoadLoop (fun _ => 0) 0 n c capInit = none := by
  induction n with
  | zero => intro c; rfl
  | succ n ih =>
    intro c
    have hg : capInit > capTol := by norm_num [capInit, capTol]
    have hs : ¬ ((fun _ : ℚ => (0 : ℚ)) c > 0) := by norm_num
    simp only [findTargetLoadLoop, if_pos hg, if_neg hs]
    exact ih (c + capInit)

/-- C7 counterexample: for the (interface-conforming) gate-delay model with
constant output slew 0 and target slew 0, the bisection loop never
terminates: no amount of fuel makes it return a load capacitance.  The
claim's "for every ... gate-delay model" is therefore false: the loop only
halves the step when the model's slew exceeds the target. -/
theorem findTargetLoad_nontermination_counterexample :
    ¬ ∃ n r, findTargetLoadLoop (fun _ => 0) 0 n capInit capInit = some r := by
  rintro ⟨n, r, h⟩
  rw [findTargetLoadLoop_const_stuck n capInit] at h
  exact Option.noConfusion h

/-- C7 as amended: the loop terminates for every gate-delay model whose
output slew (at input slew 0) exceeds the target for all sufficiently
large loads.  Helper: fuel exists from any state whose step is within `k`
halvings of the tolerance. -/
theorem findTargetLoadLoop_term_aux (slewAt : ℚ → ℚ) (inSlew C : ℚ)
    (hC : ∀ c, C ≤ c → inSlew < slewAt c) (k : ℕ) :
    ∀ s c : ℚ, 0 < s → s ≤ capTol * 2 ^ k →
      ∃ n r, findTargetLoadLoop slewAt inSlew n c s = some r := by
  induction k with
  | zero =>
    intro s c _ hsk
    rw [pow_zero, mul_one] at hsk
    have hng : ¬ (s > capTol) := not_lt.mpr hsk
    exact ⟨1, c, by simp only [findTargetLoadLoop, if_neg hng]⟩
  | succ k ih =>
    intro s c hs hsk
    have hhalf : s / 2 ≤ capTol * 2 ^ k := by
      have h2 : capTol * 2 ^ (k + 1) = 2 * (capTol * 2 ^ k) := by ring
      rw [h2] at hsk
      linarith
    have inner : ∀ m : ℕ, ∀ c : ℚ, C - c < m * s →
        ∃ n r, findTargetLoadLoop slewAt inSlew n c s = some r := by
      intro m
      induction m with
      | zero =>
        intro c hm
        by_cases hg : s > capTol
        · have hcC : C ≤ c := by
            push_cast at hm
            linarith
          have hslew : inSlew < slewAt c := hC c hcC
          obtain ⟨n, r, hn⟩ := ih (s / 2) (c - s + s / 2) (by linarith) hhalf
          exact ⟨n + 1, r, by
            simp only [findTargetLoadLoop, if_pos hg, if_pos hslew]
            exact hn⟩
        · exact ⟨1, c, by simp only [findTargetLoadLoop, if_neg hg]⟩
      | succ m ihm =>
        intro c hm
        by_cases hg : s > capTol
        · by_cases hslew : slewAt c > inSlew
          · obtain ⟨n, r, hn⟩ := ih (s / 2) (c - s + s / 2) (by linarith) hhalf
            exact ⟨n + 1, r, by
              simp only [findTargetLoadLoop, if_pos hg, if_pos hslew]
              exact hn⟩
          · have hnext : C - (c + s) < m * s := by
              push_cast at hm ⊢
              linarith
            obtain ⟨n, r, hn⟩ := ihm (c + s) hnext
            exact ⟨n + 1, r, by
              simp only [findTargetLoadLoop, if_pos hg, if_neg hslew]
              exact hn⟩
        · exact ⟨1, c, by simp only [findTargetLoadLoop, if_neg hg]⟩
    obtain ⟨m, hm⟩ := exists_nat_gt ((C - c) / s)
    refine inner m c ?_
    have := (div_lt_iff hs).mp hm
    linarith

/-- C7 as amended: for every gate-delay model whose output slew at input
slew 0 eventually exceeds the target slew (for all loads at or above some
threshold `C`), the bisection-by-halving loop of `findTargetLoad`
terminates and returns a load capacitance.  (Ten halvings bring the 1 pF
step below the 0.001 pF tolerance.) -/
theorem findTargetLoad_terminates_of_slew_exceeds (slewAt : ℚ → ℚ)
    (inSlew C : ℚ) (hC : ∀ c, C ≤ c → inSlew < slewAt c) :
    ∃ n r, findTargetLoadLoop slewAt inSlew n capInit capInit = some r := by
  refine findTargetLoadLoop_term_aux slewAt inSlew C hC 10 capInit capInit
    (by norm_num [capInit]) (by norm_num [capInit, capTol])

/-- Witness for the amended C7 with the identity slew model and target 0. -/
theorem findTargetLoad_terminates_of_slew_exceeds_witness :
    (∀ c : ℚ, 1 ≤ c → (0 : ℚ) < c) ∧
    ∃ n r, findTargetLoadLoop (fun c => c) 0 n capInit capInit = some r :=
  ⟨fun c hc => lt_of_lt_of_le zero_lt_one hc,
   findTargetLoad_terminates_of_slew_exceeds (fun c => c) 0 1
     (fun c hc => lt_of_lt_of_le zero_lt_one hc)⟩

/-- C6 (code evaluated at the failing input): pruning the junction set
`[X, P, Q]` (with a zero-delay buffer, so `required_with_buffer` is just
`required`) retains BOTH `P` and `Q`, although `Q` has strictly larger
`required_with_buffer` and strictly smaller cap than `P` under the fuzzy
comparator.  Cause: `P`'s own outer pass nulls `X` (slot 0); in `Q`'s later
pass the inner index `qi` is incremented only for non-null entries
(Resizer.cc lines 842-852), so when the dominated `P` is found at slot 1,
`Z2[qi] = nullptr` hits slot 0 again and `P` survives. -/
theorem rebuffer_prune_retains_dominated :
    pruneSurvivors zeroEnv [optX, optP, optQ] = [optP, optQ] ∧
    rvalFuzzyGreater (bufferRequired zeroEnv optQ)
      (bufferRequired zeroEnv optP) = true ∧
    fuzzyLessQ (optCap optQ) (optCap optP) = true := by
  refine ⟨?_, ?_, ?_⟩
  · norm_num [pruneSurvivors, pruneOptions, pruneAux, pruneStep, pruneWrites,
      applyWrites, bufferRequired, rvalSub, rvalFuzzyLess, rvalFuzzyEqual,
      rvalLt, fuzzyGreaterQ, fuzzyLessQ, fuzzyEqualQ, fuzzyEpsilon, optX,
      optP, optQ, sinkRef, zeroEnv, optCap, optRequired, List.getD,
      List.filterMap, id]
  · norm_num [bufferRequired, rvalSub, rvalFuzzyGreater, rvalFuzzyEqual,
      rvalLt, fuzzyEqualQ, fuzzyEpsilon, optX, optP, optQ, sinkRef, zeroEnv,
      optCap, optRequired]
  · norm_num [fuzzyLessQ, fuzzyEqualQ, fuzzyEpsilon, optX, optP, optQ,
      sinkRef, optCap]

/-- C8: `has_max_cap_violation(pin)` is true iff the pin resolves to a
liberty port that declares a max-capacitance limit and the observed load
capacitance exceeds that limit; a pin with no liberty port or no declared
limit never reports a violation. -/
theorem hasMaxCapViolation_iff (port : Option LibPortModel) (loadCap : ℚ) :
    hasMaxCapViolation port loadCap = true ↔
      ∃ p, port = some p ∧ ∃ lim, p.capLimit = some lim ∧ loadCap > lim := by
  cases port with
  | none => simp [hasMaxCapViolation]
  | some p =>
    cases hl : p.capLimit with
    | none => simp [hasMaxCapViolation, hl]
    | some lim => simp [hasMaxCapViolation, hl]

/-- C4 (code evaluated at the failing input): with no slew limit declared
anywhere (design, port, pin, liberty) and the uninitialized limit variable
holding 0, a pin with slew 1 is reported as violating, although the claim
requires `false` when no limit exists.  The source compares the slew against
`slewLimit`'s limit out-parameter without consulting its `exists` flag. -/
theorem hasMaxSlewViolation_no_limit_violation :
    hasMaxSlewViolation 1 1 false ⟨none, none, none, none, 0⟩ = true ∧
    (slewLimit false ⟨none, none, none, none, 0⟩).2 = false := by
  constructor
  · rfl
  · rfl

/-- C5 (code evaluated at the failing input): on a graph with one driver
vertex and one load vertex, the "level driver verticies" list produced by
`ensureLevelDrvrVerticies` contains the load vertex as well - the loop pushes
every graph vertex, never testing for drivers - so the list is not "exactly
the driver vertices".  The ordering (by level, ties by path) does hold. -/
theorem ensureLevelDrvrVerticies_contains_nondriver :
    ensureLevelDrvrVerticies [exampleLoadVtx, exampleDrvrVtx]
        = [exampleDrvrVtx, exampleLoadVtx] ∧
    exampleLoadVtx ∈ ensureLevelDrvrVerticies [exampleLoadVtx, exampleDrvrVtx] ∧
    exampleLoadVtx.isDriver = false := by
  refine ⟨by decide, by decide, by decide⟩

/-- Unfolded characterization of the fuzzy strict greater-than on `ℚ`. -/
theorem fuzzyGreaterQ_iff {a b : ℚ} :
    fuzzyGreaterQ a b = true ↔ b < a ∧ fuzzyEpsilon * max |a| |b| < |a - b| := by
  simp [fuzzyGreaterQ, fuzzyEqualQ, not_le]

/-- The fuzzy strict greater-than on `ℚ` is transitive (the epsilon is
proportional to the magnitudes, so two strict gaps compose). -/
theorem fuzzyGreaterQ_trans {a b c : ℚ} (hab : fuzzyGreaterQ a b = true)
    (hbc : fuzzyGreaterQ b c = true) : fuzzyGreaterQ a c = true := by
  rw [fuzzyGreaterQ_iff] at hab hbc ⊢
  obtain ⟨hba, hab2⟩ := hab
  obtain ⟨hcb, hbc2⟩ := hbc
  have hca : c < a := lt_trans hcb hba
  refine ⟨hca, ?_⟩
  have h1 : |a - b| = a - b := abs_of_pos (sub_pos.2 hba)
  have h2 : |b - c| = b - c := abs_of_pos (sub_pos.2 hcb)
  have h3 : |a - c| = a - c := abs_of_pos (sub_pos.2 hca)
  rw [h1] at hab2
  rw [h2] at hbc2
  rw [h3]
  have he : (0 : ℚ) ≤ fuzzyEpsilon := by norm_num [fuzzyEpsilon]
  have h4 : fuzzyEpsilon * |a| ≤ fuzzyEpsilon * max |a| |b| :=
    mul_le_mul_of_nonneg_left (le_max_left _ _) he
  have h5 : fuzzyEpsilon * |c| ≤ fuzzyEpsilon * max |b| |c| :=
    mul_le_mul_of_nonneg_left (le_max_right _ _) he
  have h6 : max |a| |c| ≤ |a| + |c| :=
    max_le (le_add_of_nonneg_right (abs_nonneg _))
      (le_add_of_nonneg_left (abs_nonneg _))
  have h7 : fuzzyEpsilon * max |a| |c| ≤ fuzzyEpsilon * (|a| + |c|) :=
    mul_le_mul_of_nonneg_left h6 he
  have h8 : fuzzyEpsilon * (|a| + |c|)
      = fuzzyEpsilon * |a| + fuzzyEpsilon * |c| := mul_add _ _ _
  linarith

/-- On finite values the extended comparator is the rational one. -/
theorem rvalFuzzyGreater_fin_fin (a b : ℚ) :
    rvalFuzzyGreater (.fin a) (.fin b) = fuzzyGreaterQ a b := rfl

/-- The extended fuzzy greater-than is irreflexive. -/
theorem rvalFuzzyGreater_irrefl (a : RVal) :
    rvalFuzzyGreater a a = false := by
  cases a <;> simp [rvalFuzzyGreater, rvalLt, rvalFuzzyEqual]

/-- Nothing is fuzzy-greater when the left side is `-INF`. -/
theorem rvalFuzzyGreater_ninf_left (b : RVal) :
    rvalFuzzyGreater .ninf b = false := by
  cases b <;> rfl

/-- Nothing is fuzzy-greater than `INF`. -/
theorem rvalFuzzyGreater_inf_right (a : RVal) :
    rvalFuzzyGreater a .inf = false := by
  cases a <;> rfl

/-- Exactly the non-`-INF` values are fuzzy-greater than `-INF`. -/
theorem rvalFuzzyGreater_ninf_right_iff (a : RVal) :
    rvalFuzzyGreater a .ninf = true ↔ a ≠ .ninf := by
  cases a <;> simp [rvalFuzzyGreater, rvalLt, rvalFuzzyEqual]

/-- The extended fuzzy greater-than is transitive. -/
theorem rvalFuzzyGreater_trans {a b c : RVal}
    (hab : rvalFuzzyGreater a b = true) (hbc : rvalFuzzyGreater b c = true) :
    rvalFuzzyGreater a c = true := by
  cases b with
  | ninf => exact absurd hbc (by simp [rvalFuzzyGreater_ninf_left])
  | inf => exact absurd hab (by simp [rvalFuzzyGreater_inf_right])
  | fin y =>
    cases a with
    | ninf => exact absurd hab (by simp [rvalFuzzyGreater, rvalLt])
    | inf =>
      cases c with
      | ninf => rfl
      | fin z => rfl
      | inf => exact absurd hbc (by simp [rvalFuzzyGreater_inf_right])
    | fin x =>
      cases c with
      | ninf => rfl
      | inf => exact absurd hbc (by simp [rvalFuzzyGreater_inf_right])
      | fin z =>
        rw [rvalFuzzyGreater_fin_fin] at hab hbc ⊢
        exact fuzzyGreaterQ_trans hab hbc

/-- The selection fold of `addWireAndBuffer` preserves its invariant. -/
theorem awb_foldl_spec (E : RebufEnv) (kLoc prevLoc : DefPt)
    (Z : List RebufferOption) :
    ∀ (proc : List RebufferOption)
      (st : List RebufferOption × RVal × Option RebufferOption),
      AwbInv E kLoc prevLoc proc st →
      AwbInv E kLoc prevLoc (proc ++ Z)
        (Z.foldl (awbStep E kLoc prevLoc) st) := by
  induction Z with
  | nil => intro proc st h; simpa using h
  | cons p Z ih =>
    intro proc st h
    obtain ⟨h1, h2⟩ := h
    have hstep : AwbInv E kLoc prevLoc (proc ++ [p])
        (awbStep E kLoc prevLoc st p) := by
      cases hgt : rvalFuzzyGreater
          (bufferRequired E (mkWireOption E kLoc prevLoc p)) st.2.1 with
      | true =>
        refine ⟨by simp [awbStep, hgt, h1], Or.inr ⟨p, ?_, ?_, ?_, ?_⟩⟩
        · simp [awbStep, hgt]
        · simp
        · simp [awbStep, hgt, wireBufReq]
        · intro q hq
          rcases List.mem_append.mp hq with hq | hq
          · rcases h2 with ⟨_, hbest, hall⟩ | ⟨p0, _, _, hbest, hmax⟩
            · rw [hall q hq]
              exact rvalFuzzyGreater_ninf_left _
            · rw [hbest] at hgt
              by_contra hqc
              rw [Bool.not_eq_false] at hqc
              exact Bool.noConfusion ((hmax q hq).symm.trans
                (rvalFuzzyGreater_trans hqc hgt))
          · rw [List.mem_singleton.mp hq]
            exact rvalFuzzyGreater_irrefl _
      | false =>
        rcases h2 with ⟨hnone, hbest, hall⟩ | ⟨p0, hsome, hmem, hbest, hmax⟩
        · rw [hbest] at hgt
          have hpninf : wireBufReq E kLoc prevLoc p = RVal.ninf := by
            by_contra hne
            exact Bool.noConfusion
              (((rvalFuzzyGreater_ninf_right_iff _).mpr hne).symm.trans hgt)
          refine ⟨by simp [awbStep, hgt, hbest, h1],
            Or.inl ⟨by simp [awbStep, hgt, hbest, hnone],
              by simp [awbStep, hgt, hbest], ?_⟩⟩
          intro q hq
          rcases List.mem_append.mp hq with hq | hq
          · exact hall q hq
          · rw [List.mem_singleton.mp hq]
            exact hpninf
        · rw [hbest] at hgt
          refine ⟨by simp [awbStep, hgt, hbest, h1],
            Or.inr ⟨p0, by simp [awbStep, hgt, hbest, hsome],
              List.mem_append_left _ hmem,
              by simp [awbStep, hgt, hbest], ?_⟩⟩
          intro q hq
          rcases List.mem_append.mp hq with hq | hq
          · exact hmax q hq
          · rw [List.mem_singleton.mp hq]
            exact hgt
    have := ih (proc ++ [p]) _ hstep
    simpa using this

/-- C1 as amended: for every option set `Z` one of whose wire-extended
buffer-required values is not `-INF` (always the case for finite or
unconstrained requireds), `addWireAndBuffer` emits exactly one additional
buffer-typed option, appended after the wire options; its cap is the buffer
cell's input capacitance, its location is `prev`'s location, its ref is a
member `p*` of `Z`, and its required time is
`(p*.required - wire_delay) - buffer_delay(B, p*.cap + wire_cap)` - the
buffer-required of `p*`'s WIRE EXTENSION, not of `p*` itself - where `p*`
is the first member of `Z` maximizing that quantity under the fuzzy
comparator. -/
theorem addWireAndBuffer_buffer_option_spec (E : RebufEnv)
    (kLoc prevLoc : DefPt) (Z : List RebufferOption)
    (h : ∃ p ∈ Z, wireBufReq E kLoc prevLoc p ≠ RVal.ninf) :
    ∃ pstar ∈ Z,
      addWireAndBuffer E Z kLoc prevLoc
        = Z.map (mkWireOption E kLoc prevLoc)
          ++ [.buf E.bufferInputCap (wireBufReq E kLoc prevLoc pstar) prevLoc
                pstar] ∧
      ∀ q ∈ Z, rvalFuzzyGreater (wireBufReq E kLoc prevLoc q)
        (wireBufReq E kLoc prevLoc pstar) = false := by
  have base : AwbInv E kLoc prevLoc []
      (([] : List RebufferOption), RVal.ninf,
        (none : Option RebufferOption)) := by
    exact ⟨by simp, Or.inl ⟨rfl, rfl, by simp⟩⟩
  have inv := awb_foldl_spec E kLoc prevLoc Z [] _ base
  obtain ⟨h1, h2⟩ := inv
  rcases h2 with ⟨hnone, hbest, hall⟩ | ⟨p, hsome, hmem, hbest, hmax⟩
  · obtain ⟨p, hp, hne⟩ := h
    exact absurd (hall p (by simpa using hp)) hne
  · refine ⟨p, by simpa using hmem, ?_,
      fun q hq => hmax q (by simpa using hq)⟩
    simp only [addWireAndBuffer, hsome, h1, hbest]
    simp

/-- C1 counterexample: with unit wire parasitics, a buffer whose delay
equals its load, and the single option `cxSink` (cap 1, required 10) one
DBU from its parent, the emitted buffer option's required time is 7
(`(10 - wire_delay 1) - bufferDelay(1 + wire_cap 1) = 9 - 2`), whereas the
claim's formula `p*.required - buffer_delay(B, p*.cap) = 10 - 1` gives 9:
the code computes the buffer's required from the wire-extended option, not
from `p*` directly. -/
theorem addWireAndBuffer_required_counterexample :
    (addWireAndBuffer cxEnv [cxSink] ⟨0, 0⟩ ⟨1, 0⟩).filter isBufferOpt
      = [.buf 1 (.fin 7) ⟨1, 0⟩ cxSink] ∧
    rvalSub (optRequired cxSink) (cxEnv.bufferDelay (optCap cxSink))
      = .fin 9 ∧
    RVal.fin 7 ≠ RVal.fin 9 := by
  refine ⟨?_, ?_, by simp⟩
  · norm_num [addWireAndBuffer, awbStep, isBufferOpt, mkWireOption,
      bufferRequired, wireBufReq, rvalSub, rvalFuzzyGreater, rvalFuzzyEqual,
      rvalLt, cxEnv, cxSink, optCap, optRequired, wireCapOf, wireResOf,
      wireDelayOf, wireLengthMeters, manhattanDbu, List.filter]
  · norm_num [rvalSub, cxEnv, cxSink, optCap, optRequired]

/-- Witness for the amended C1 at the concrete input of the
counterexample. -/
theorem addWireAndBuffer_buffer_option_spec_witness :
    (∃ p ∈ [cxSink], wireBufReq cxEnv ⟨0, 0⟩ ⟨1, 0⟩ p ≠ RVal.ninf) ∧
    (∃ pstar ∈ [cxSink],
      addWireAndBuffer cxEnv [cxSink] ⟨0, 0⟩ ⟨1, 0⟩
        = [cxSink].map (mkWireOption cxEnv ⟨0, 0⟩ ⟨1, 0⟩)
          ++ [.buf cxEnv.bufferInputCap
                (wireBufReq cxEnv ⟨0, 0⟩ ⟨1, 0⟩ pstar) ⟨1, 0⟩ pstar] ∧
      ∀ q ∈ [cxSink], rvalFuzzyGreater (wireBufReq cxEnv ⟨0, 0⟩ ⟨1, 0⟩ q)
        (wireBufReq cxEnv ⟨0, 0⟩ ⟨1, 0⟩ pstar) = false) :=
  ⟨⟨cxSink, by simp, by
      norm_num [wireBufReq, mkWireOption, bufferRequired, rvalSub, cxEnv,
        cxSink, optCap, optRequired, wireCapOf, wireResOf, wireDelayOf,
        wireLengthMeters, manhattanDbu]
      all_goals decide⟩,
   addWireAndBuffer_buffer_option_spec cxEnv ⟨0, 0⟩ ⟨1, 0⟩ [cxSink]
     ⟨cxSink, by simp, by
      norm_num [wireBufReq, mkWireOption, bufferRequired, rvalSub, cxEnv,
        cxSink, optCap, optRequired, wireCapOf, wireResOf, wireDelayOf,
        wireLengthMeters, manhattanDbu]
      all_goals decide⟩⟩

/-- Helper: along the resize candidate fold, the best ratio never
decreases, bounds the folded ratio of every processed candidate, and is
the folded ratio of the recorded best cell. -/
theorem resize_foldl_spec (loadCap : ℚ) (l : List CellModel) :
    ∀ acc : ℚ × Option CellModel,
      (∀ b, acc.2 = some b → acc.1 = ratioFolded b.targetLoad loadCap) →
      acc.1 ≤ (l.foldl (resizeCandidateStep loadCap) acc).1 ∧
      (∀ c ∈ l, ratioFolded c.targetLoad loadCap
        ≤ (l.foldl (resizeCandidateStep loadCap) acc).1) ∧
      (∀ b, (l.foldl (resizeCandidateStep loadCap) acc).2 = some b →
        (l.foldl (resizeCandidateStep loadCap) acc).1
          = ratioFolded b.targetLoad loadCap) := by
  induction l with
  | nil =>
    intro acc hinv
    exact ⟨le_refl _, by simp, hinv⟩
  | cons c l ih =>
    intro acc hinv
    by_cases hgt : ratioFolded c.targetLoad loadCap > acc.1
    · have hstep : resizeCandidateStep loadCap acc c
          = (ratioFolded c.targetLoad loadCap, some c) := by
        simp [resizeCandidateStep, hgt]
      obtain ⟨hmono, hall, hbest⟩ :=
        ih (ratioFolded c.targetLoad loadCap, some c)
          (by intro b hb; simp at hb; rw [hb])
      refine ⟨?_, ?_, ?_⟩
      · rw [List.foldl_cons, hstep]
        exact le_trans (le_of_lt hgt) hmono
      · intro c' hc'
        rcases List.mem_cons.mp hc' with hc' | hc'
        · rw [hc', List.foldl_cons, hstep]
          exact hmono
        · rw [List.foldl_cons, hstep]
          exact hall c' hc'
      · rw [List.foldl_cons, hstep]
        exact hbest
    · have hstep : resizeCandidateStep loadCap acc c = acc := by
        simp [resizeCandidateStep, hgt]
      obtain ⟨hmono, hall, hbest⟩ := ih acc hinv
      refine ⟨?_, ?_, ?_⟩
      · rw [List.foldl_cons, hstep]
        exact hmono
      · intro c' hc'
        rcases List.mem_cons.mp hc' with hc' | hc'
        · rw [hc', List.foldl_cons, hstep]
          exact le_trans (not_lt.mp hgt) hmono
        · rw [List.foldl_cons, hstep]
          exact hall c' hc'
      · rw [List.foldl_cons, hstep]
        exact hbest

/-- C3 as amended: when the resize pass replaces `cell` by `best`, the
chosen cell maximizes the FOLDED ratio `min(target_load/load,
load/target_load)` over the whole equivalence group - in particular its
folded ratio is at least the current cell's whenever the current cell
belongs to the group.  (The claim's `|target_load/load - 1|` metric is NOT
in general improved; see the counterexample.) -/
theorem resizeToTargetSlew1_folded_ratio_maximal (cell best : CellModel)
    (equivCells : List CellModel) (loadCap : ℚ)
    (h : resizeToTargetSlew1 cell equivCells loadCap = some best) :
    ∀ c ∈ equivCells,
      ratioFolded c.targetLoad loadCap
        ≤ ratioFolded best.targetLoad loadCap := by
  have hbest : bestEquivCell equivCells loadCap = some best := by
    unfold resizeToTargetSlew1 at h
    cases hb : bestEquivCell equivCells loadCap with
    | none => rw [hb] at h; exact Option.noConfusion h
    | some b =>
      rw [hb] at h
      have h' : (if b ≠ cell then some b else none) = some best := h
      by_cases hne : b ≠ cell
      · rw [if_pos hne] at h'
        exact h'
      · rw [if_neg hne] at h'
        exact Option.noConfusion h'
  obtain ⟨hmono, hall, hinv⟩ :=
    resize_foldl_spec loadCap equivCells ((0 : ℚ), none) (by simp)
  intro c hc
  have hfin := hinv best hbest
  rw [← hfin]
  exact hall c hc

/-- C3 counterexample: current cell has target load 1/2, candidate 19/10,
load 1.  The candidate's folded ratio 10/19 beats the current 1/2, so the
pass replaces the cell - but `|target_load/load - 1|` WORSENS from 1/2 to
9/10.  The claim's metric inequality is false for the code's selection
rule. -/
theorem resizeToTargetSlew1_ratio_metric_counterexample :
    resizeToTargetSlew1 ⟨0, 1/2⟩ [⟨0, 1/2⟩, ⟨1, 19/10⟩] 1
        = some ⟨1, 19/10⟩ ∧
    ¬(|(19/10 : ℚ) / 1 - 1| ≤ |(1/2 : ℚ) / 1 - 1|) := by
  constructor
  · norm_num [resizeToTargetSlew1, bestEquivCell, resizeCandidateStep,
      ratioFolded, CellModel.mk.injEq]
  · rw [not_le]
    norm_num [abs_of_pos, abs_of_neg]

/-- Witness for the amended C3 at a concrete replaced instance. -/
theorem resizeToTargetSlew1_folded_ratio_maximal_witness :
    resizeToTargetSlew1 ⟨0, 1/2⟩ [⟨0, 1/2⟩, ⟨1, 1⟩] 1 = some ⟨1, 1⟩ ∧
    ∀ c ∈ [CellModel.mk 0 (1/2), CellModel.mk 1 1],
      ratioFolded c.targetLoad 1
        ≤ ratioFolded (CellModel.mk 1 1).targetLoad 1 := by
  have h : resizeToTargetSlew1 ⟨0, 1/2⟩ [⟨0, 1/2⟩, ⟨1, 1⟩] 1
      = some ⟨1, 1⟩ := by
    norm_num [resizeToTargetSlew1, bestEquivCell, resizeCandidateStep,
      ratioFolded, CellModel.mk.injEq]
  exact ⟨h, resizeToTargetSlew1_folded_ratio_maximal ⟨0, 1/2⟩ ⟨1, 1⟩
    [⟨0, 1/2⟩, ⟨1, 1⟩] 1 h⟩

/-- Helper: null-writes only remove entries; any surviving entry was
already in the vector. -/
theorem applyWrites_mem (ws : List ℕ) :
    ∀ (arr : List (Option RebufferOption)) (i : ℕ)
      (y : Option RebufferOption),
      y ∈ applyWrites ws arr i → y = none ∨ y ∈ arr := by
  intro arr
  induction arr with
  | nil =>
    intro i y h
    exact absurd h (by simp [applyWrites])
  | cons x rest ih =>
    intro i y h
    simp only [applyWrites] at h
    rcases List.mem_cons.mp h with h | h
    · by_cases hw : i ∈ ws
      · left
        simpa [hw] using h
      · right
        rw [if_neg hw] at h
        rw [h]
        exact List.mem_cons_self x rest
    · rcases ih (i + 1) y h with h | h
      · exact Or.inl h
      · exact Or.inr (List.mem_cons_of_mem _ h)

/-- Helper: the outer pruning loop only nulls entries; a non-null entry of
the result was an entry of the input vector. -/
theorem pruneAux_mem (E : RebufEnv) :
    ∀ (n : ℕ) (arr : List (Option RebufferOption)) (i : ℕ)
      (x : RebufferOption),
      some x ∈ pruneAux E n arr i → some x ∈ arr := by
  intro n
  induction n with
  | zero =>
    intro arr i x h
    simpa [pruneAux] using h
  | succ n ih =>
    intro arr i x h
    simp only [pruneAux] at h
    cases hg : arr.getD i none with
    | some p =>
      rw [hg] at h
      have h' := ih _ _ _ h
      rcases applyWrites_mem _ _ _ _ h' with h'' | h''
      · exact Option.noConfusion h''
      · exact h''
    | none =>
      rw [hg] at h
      exact ih _ _ _ h

/-- Helper: every pruning survivor is one of the junction options. -/
theorem pruneSurvivors_mem (E : RebufEnv) (Z2 : List RebufferOption)
    (o : RebufferOption) (h : o ∈ pruneSurvivors E Z2) : o ∈ Z2 := by
  simp only [pruneSurvivors, pruneOptions, List.mem_filterMap, id] at h
  obtain ⟨a, ha, hid⟩ := h
  rw [hid] at ha
  have := pruneAux_mem E _ _ _ _ ha
  simpa using this

/-- Helper: every sink `(pin, cap)` pair reachable from an
`addWireAndBuffer` output is reachable from a member of the input set
(wire options wrap one input option, the buffer option wraps `best_ref`). -/
theorem addWireAndBuffer_collect (E : RebufEnv) (kLoc prevLoc : DefPt)
    (Z : List RebufferOption) (o : RebufferOption)
    (ho : o ∈ addWireAndBuffer E Z kLoc prevLoc) (pr : ℕ × ℚ)
    (hpr : pr ∈ collectSinkCaps o) :
    ∃ z ∈ Z, pr ∈ collectSinkCaps z := by
  have base : AwbInv E kLoc prevLoc []
      (([] : List RebufferOption), RVal.ninf,
        (none : Option RebufferOption)) :=
    ⟨by simp, Or.inl ⟨rfl, rfl, by simp⟩⟩
  obtain ⟨h1, h2⟩ := awb_foldl_spec E kLoc prevLoc Z [] _ base
  rcases h2 with ⟨hnone, _, _⟩ | ⟨p, hsome, hmem, _, _⟩
  · simp only [addWireAndBuffer, hnone, h1] at ho
    simp only [List.nil_append] at ho
    obtain ⟨z, hz, hzeq⟩ := List.mem_map.mp ho
    refine ⟨z, hz, ?_⟩
    rw [← hzeq] at hpr
    simpa [mkWireOption, collectSinkCaps] using hpr
  · simp only [addWireAndBuffer, hsome, h1] at ho
    simp only [List.nil_append] at ho
    rcases List.mem_append.mp ho with ho | ho
    · obtain ⟨z, hz, hzeq⟩ := List.mem_map.mp ho
      refine ⟨z, hz, ?_⟩
      rw [← hzeq] at hpr
      simpa [mkWireOption, collectSinkCaps] using hpr
    · rw [List.mem_singleton.mp ho] at hpr
      refine ⟨p, by simpa using hmem, ?_⟩
      simpa [collectSinkCaps] using hpr

/-- C10: every sink option produced anywhere in the bottom-up DP carries as
its cap the `pinCapacitance` of its load pin's liberty port: the max of
the port's rise and fall capacitances at the max analysis condition, and
0.0 for a pin with no liberty port. -/
theorem rebufferBottomUp_sink_cap_spec (E : RebufEnv) (t : STree) :
    ∀ (prevLoc : DefPt), ∀ o ∈ rebufferBottomUp E t prevLoc,
      ∀ pr ∈ collectSinkCaps o,
        ∃ s ∈ treeSinks t, s.id = pr.1 ∧
          (∀ pm, s.port = some pm → pr.2 = max pm.capRise pm.capFall) ∧
          (s.port = none → pr.2 = 0) := by
  induction t with
  | null =>
    intro prevLoc o ho
    simp [rebufferBottomUp] at ho
  | node loc pin l r ihl ihr =>
    intro prevLoc o ho pr hpr
    cases pin with
    | some s =>
      cases hload : s.isLoad with
      | false =>
        simp only [rebufferBottomUp, hload] at ho
        simp at ho
      | true =>
        simp only [rebufferBottomUp, hload, if_true] at ho
        obtain ⟨z, hz, hprz⟩ :=
          addWireAndBuffer_collect E loc prevLoc _ o ho pr hpr
        rw [List.mem_singleton.mp hz] at hprz
        simp only [collectSinkCaps, List.mem_singleton] at hprz
        refine ⟨s, by simp [treeSinks, hload], ?_, ?_, ?_⟩
        · rw [hprz]
        · intro pm hpm
          rw [hprz]
          simp [pinCapacitance, portCapacitance, hpm]
        · intro hpm
          rw [hprz]
          simp [pinCapacitance, hpm]
    | none =>
      simp only [rebufferBottomUp] at ho
      obtain ⟨z, hz, hprz⟩ :=
        addWireAndBuffer_collect E loc prevLoc _ o ho pr hpr
      have hz2 := pruneSurvivors_mem E _ _ hz
      simp only [List.mem_flatMap, List.mem_map] at hz2
      obtain ⟨p, hp, q, hq, hzeq⟩ := hz2
      rw [← hzeq] at hprz
      simp only [collectSinkCaps] at hprz
      rcases List.mem_append.mp hprz with hpr' | hpr'
      · obtain ⟨s, hs, hsprop⟩ := ihl loc p hp pr hpr'
        exact ⟨s, by simp [treeSinks, List.mem_append]; exact Or.inl hs,
          hsprop⟩
      · obtain ⟨s, hs, hsprop⟩ := ihr loc q hq pr hpr'
        exact ⟨s, by simp [treeSinks, List.mem_append]; exact Or.inr hs,
          hsprop⟩

/-- Witness for C10 at a one-load tree whose liberty port has rise cap 2
and fall cap 3: the sink option carries cap 3 = max(2, 3). -/
theorem rebufferBottomUp_sink_cap_spec_witness :
    (witOpt ∈ rebufferBottomUp zeroEnv witTree ⟨0, 0⟩) ∧
    ((9, (3 : ℚ)) ∈ collectSinkCaps witOpt) ∧
    (∃ s ∈ treeSinks witTree, s.id = (9, (3 : ℚ)).1 ∧
      (∀ pm, s.port = some pm → (9, (3 : ℚ)).2 = max pm.capRise pm.capFall) ∧
      (s.port = none → (9, (3 : ℚ)).2 = 0)) := by
  have h1 : witOpt ∈ rebufferBottomUp zeroEnv witTree ⟨0, 0⟩ := by
    norm_num [rebufferBottomUp, addWireAndBuffer, awbStep, mkWireOption,
      bufferRequired, rvalSub, rvalFuzzyGreater, rvalFuzzyEqual, rvalLt,
      wireCapOf, wireResOf, wireDelayOf, wireLengthMeters, manhattanDbu,
      pinCapacitance, portCapacitance, zeroEnv, witTree, witOpt, optCap,
      optRequired]
  have h2 : ((9, (3 : ℚ))) ∈ collectSinkCaps witOpt := by
    simp [witOpt, collectSinkCaps]
  exact ⟨h1, h2,
    rebufferBottomUp_sink_cap_spec zeroEnv witTree ⟨0, 0⟩ witOpt h1
      (9, (3 : ℚ)) h2⟩
